import Mathlib

/-!
Verification development for the `golop` emerge-log analyser.

The Go sources are shallowly embedded: strings are `List Char`/`String`,
`time.Time` values are epoch seconds as `Int`, `time.Duration` values are
nanoseconds as `Int` (with the documented saturation of `time.Time.Sub` and
the two's-complement wrap of 64-bit arithmetic made explicit), Go maps are
association lists with overwrite-on-insert, and the regular expressions of
`init` are embedded as executable leftmost-first matchers specialised to
their concrete patterns.
-/

namespace Golop

/-! ## Characters and tokenisation -/

/-- The white-space class of Go's `strings.Fields` (`unicode.IsSpace`,
restricted to the Latin-1 range). -/
def goIsSpace (c : Char) : Bool :=
  c = ' ' || c = '\t' || c = '\n' || c = '\x0b' || c = '\x0c' || c = '\r' ||
  c = '\u0085' || c = ' '

/-- The character class `[A-Za-z0-9/_-]` of the `package` capture groups. -/
def isPkgChar (c : Char) : Bool :=
  ('A' ≤ c && c ≤ 'Z') || ('a' ≤ c && c ≤ 'z') || ('0' ≤ c && c ≤ '9') ||
  c = '/' || c = '_' || c = '-'

/-- The character class `\d` (ASCII digits). -/
def isDigitCh (c : Char) : Bool := '0' ≤ c && c ≤ '9'

/-- Helper for `goFields`: accumulate the current token (reversed). -/
def goFieldsAux (cur : List Char) : List Char → List (List Char)
  | [] => if cur.isEmpty then [] else [cur.reverse]
  | c :: t =>
    if goIsSpace c then
      if cur.isEmpty then goFieldsAux [] t else cur.reverse :: goFieldsAux [] t
    else goFieldsAux (c :: cur) t

/-- `strings.Fields`: split around runs of white space, dropping empties. -/
def goFields (s : List Char) : List (List Char) := goFieldsAux [] s

/-- `strings.Join(fields, " ")`. -/
def joinSpace : List (List Char) → List Char
  | [] => []
  | [x] => x
  | x :: y :: t => x ++ ' ' :: joinSpace (y :: t)

/-- Match a literal at the front of `s`, returning the remainder. -/
def dropLit : List Char → List Char → Option (List Char)
  | [], s => some s
  | _ :: _, [] => none
  | l :: ls, c :: cs => if c = l then dropLit ls cs else none

/-- Substring search for a literal (models an unanchored regex made of
literal characters only, such as `FIRST_PACKAGE_RE`). -/
def containsLit (pat : List Char) : List Char → Bool
  | [] => (dropLit pat []).isSome
  | c :: t => (dropLit pat (c :: t)).isSome || containsLit pat t

/-! ## Embedded regular-expression matchers

Each matcher follows Go's leftmost-first submatch semantics for the concrete
pattern it embeds: starting positions are tried left to right, and at a
position the greedy `+`/`*` pieces are tried longest first.  For `\d+` or
`[^ ]+` followed by a literal that starts with a character outside the class,
only the maximal run can succeed, so those pieces are deterministic; the
`package` capture (whose class contains `-`) genuinely backtracks, which
`pkgSplitAux` implements by trying prefix lengths in decreasing order. -/

/-- Greedy `\d+` followed by a literal (which starts with a non-digit). -/
def digits1Then (lit : List Char) (s : List Char) : Option (List Char) :=
  let run := s.takeWhile isDigitCh
  if run.isEmpty then none else dropLit lit (s.drop run.length)

/-- The `version` part `\d[^ ]+ to /` of the compile start/complete patterns:
returns the captured version and the text after `" to /"`. -/
def verTo (s : List Char) : Option (List Char × List Char) :=
  match s with
  | [] => none
  | d :: r =>
    if isDigitCh d then
      let run := r.takeWhile (fun c => c ≠ ' ')
      if run.isEmpty then none
      else
        match dropLit (" to /".data) (r.drop run.length) with
        | some rest => some (d :: run, rest)
        | none => none
    else none

/-- The `version` part `\d[^ ]+` of `splitpkgverRegEx` (no trailing
context): the capture is the digit plus the maximal non-space run. -/
def splitVer (s : List Char) : Option (List Char × List Char) :=
  match s with
  | [] => none
  | d :: r =>
    if isDigitCh d then
      let run := r.takeWhile (fun c => c ≠ ' ')
      if run.isEmpty then none else some (d :: run, r.drop run.length)
    else none

/-- Last index of a character in a list, if any. -/
def lastIdxOf (c : Char) : List Char → Option Nat
  | [] => none
  | x :: t =>
    match lastIdxOf c t with
    | some j => some (j + 1)
    | none => if x = c then some 0 else none

/-- The `version` part `\d.*\)` of `unmergeStartRegEx`: greedy `.*` stops
at the last `)` within the maximal newline-free run. -/
def unmergeVer (s : List Char) : Option (List Char × List Char) :=
  match s with
  | [] => none
  | d :: r =>
    if isDigitCh d then
      let run := r.takeWhile (fun c => c ≠ '\n')
      match lastIdxOf ')' run with
      | some m => some (d :: run.take m, r.drop (m + 1))
      | none => none
    else none

/-- Backtracking for `(?P<package>[A-Za-z0-9/_-]+)-` followed by a version
matcher `verM`: try package prefix lengths `n, n-1, …, 1` (the caller passes
`n` = length of the maximal class run, so every tried prefix lies in the
class), and return `(package, version, rest)` for the first success. -/
def pkgSplitAux (verM : List Char → Option (List Char × List Char))
    (s : List Char) : Nat → Option (List Char × List Char × List Char)
  | 0 => none
  | k + 1 =>
    match s.drop (k + 1) with
    | '-' :: t =>
      match verM t with
      | some (v, rest) => some (s.take (k + 1), v, rest)
      | none => pkgSplitAux verM s k
    | _ => pkgSplitAux verM s k

/-- Match `(?P<package>[A-Za-z0-9/_-]+)-<version>` at the start of `s`. -/
def pkgSplitHere (verM : List Char → Option (List Char × List Char))
    (s : List Char) : Option (List Char × List Char × List Char) :=
  pkgSplitAux verM s (s.takeWhile isPkgChar).length

/-- Match `compileStartRegEx` at the current position. -/
def compileStartHere (s : List Char) : Option (List Char × List Char) :=
  match dropLit ">>> emerge (".data s with
  | none => none
  | some s1 =>
    match digits1Then " of ".data s1 with
    | none => none
    | some s2 =>
      match digits1Then ") ".data s2 with
      | none => none
      | some s3 =>
        match pkgSplitHere verTo s3 with
        | some (p, v, _) => some (p, v)
        | none => none

/-- `compileStartRegEx.FindStringSubmatch`: leftmost match, with the
`package` and `version` captures. -/
def compileStartFind : List Char → Option (List Char × List Char)
  | [] => none
  | c :: t =>
    match compileStartHere (c :: t) with
    | some pv => some pv
    | none => compileStartFind t

/-- Match `compileCompleteRegEx` at the current position. -/
def compileCompleteHere (s : List Char) : Option (List Char × List Char) :=
  match dropLit "::: completed emerge (".data s with
  | none => none
  | some s1 =>
    match digits1Then " of ".data s1 with
    | none => none
    | some s2 =>
      match digits1Then ") ".data s2 with
      | none => none
      | some s3 =>
        match pkgSplitHere verTo s3 with
        | some (p, v, _) => some (p, v)
        | none => none

/-- `compileCompleteRegEx.FindStringSubmatch`. -/
def compileCompleteFind : List Char → Option (List Char × List Char)
  | [] => none
  | c :: t =>
    match compileCompleteHere (c :: t) with
    | some pv => some pv
    | none => compileCompleteFind t

/-- The `...` of `unmergeStartRegEx`: three arbitrary non-newline chars. -/
def any3 (s : List Char) : Option (List Char) :=
  match s with
  | a :: b :: c :: t =>
    if a ≠ '\n' && b ≠ '\n' && c ≠ '\n' then some t else none
  | _ => none

/-- Match `unmergeStartRegEx` (`=== Unmerging... \(PKG-VER\)`) at the
current position. -/
def unmergeHere (s : List Char) : Option (List Char × List Char) :=
  match dropLit "=== Unmerging".data s with
  | none => none
  | some s1 =>
    match any3 s1 with
    | none => none
    | some s2 =>
      match dropLit " (".data s2 with
      | none => none
      | some s3 =>
        match pkgSplitHere unmergeVer s3 with
        | some (p, v, _) => some (p, v)
        | none => none

/-- `unmergeStartRegEx.FindStringSubmatch`. -/
def unmergeFind : List Char → Option (List Char × List Char)
  | [] => none
  | c :: t =>
    match unmergeHere (c :: t) with
    | some pv => some pv
    | none => unmergeFind t

/-- Match `splitpkgverRegEx` at the current position. -/
def splitpkgverHere (s : List Char) : Option (List Char × List Char) :=
  match pkgSplitHere splitVer s with
  | some (p, v, _) => some (p, v)
  | none => none

/-- `splitpkgverRegEx.FindStringSubmatch`: leftmost `PACKAGE-VERSION`
occurrence, decomposed into its two captures. -/
def splitpkgverFind : List Char → Option (List Char × List Char)
  | [] => none
  | c :: t =>
    match splitpkgverHere (c :: t) with
    | some pv => some pv
    | none => splitpkgverFind t

/-- `splitpkgver` from `util.go`.  `getReMatches` indexes the submatch slice
returned by `FindStringSubmatch`; when the regexp does not match, that slice
is `nil` and the indexing panics with an out-of-range error, which this
embedding represents by `none`. -/
def splitpkgver (pv : String) : Option (String × String) :=
  (splitpkgverFind pv.data).map (fun pq => (⟨pq.1⟩, ⟨pq.2⟩))

/-- `FIRST_PACKAGE_RE` (`>>> emerge \(1 of`) from `main.go`. -/
def firstPackageMatch (s : List Char) : Bool :=
  containsLit ">>> emerge (1 of".data s

/-! ## 64-bit integers, timestamps and durations -/

/-- `math.MaxInt64`, the maximal `time.Duration`. -/
def maxDur : Int := 2 ^ 63 - 1

/-- `math.MinInt64`, the minimal `time.Duration`. -/
def minDur : Int := -(2 ^ 63)

/-- Two's-complement wrap of Go `int64` arithmetic. -/
def wrap64 (x : Int) : Int := (x + 2 ^ 63) % 2 ^ 64 - 2 ^ 63

/-- `time.Time.Sub` for two `time.Unix(sec, 0)` values, in nanoseconds.
Per its documentation the result saturates at the maximal/minimal
`Duration` when the difference does not fit. -/
def durSubNs (e s : Int) : Int :=
  let d := (e - s) * 1000000000
  if d < minDur then minDur else if d > maxDur then maxDur else d

/-- Numeric value of a digit string. -/
def digitsVal : List Char → Nat
  | [] => 0
  | c :: t => digitsVal t + (c.toNat - 48) * 10 ^ t.length

/-- `strconv.ParseInt(s, 10, 0)` on a 64-bit platform: returns the parsed
value and an ok flag.  On a syntax error Go returns `0`; on a range error it
returns the clamped extreme value; in both cases the flag is false. -/
def parseIntGo (s : List Char) : Int × Bool :=
  let (neg, ds) :=
    match s with
    | '+' :: t => (false, t)
    | '-' :: t => (true, t)
    | _ => (false, s)
  if ds.isEmpty || !ds.all isDigitCh then (0, false)
  else
    let n : Int := (digitsVal ds : Int)
    if neg then
      if n > 2 ^ 63 then (minDur, false) else (-n, true)
    else
      if n > 2 ^ 63 - 1 then (maxDur, false) else (n, true)

/-! ## Association-list maps (Go `map` with overwrite-on-insert) -/

/-- Map lookup. -/
def lookupA {α : Type} (k : String) : List (String × α) → Option α
  | [] => none
  | (k', v) :: t => if k' = k then some v else lookupA k t

/-- Map insert: overwrite the existing binding, else append. -/
def insertA {α : Type} (k : String) (v : α) :
    List (String × α) → List (String × α)
  | [] => [(k, v)]
  | (k', v') :: t => if k' = k then (k, v) :: t else (k', v') :: insertA k v t

/-- Go `delete`: remove the binding of `k`. -/
def eraseA {α : Type} (k : String) : List (String × α) → List (String × α)
  | [] => []
  | (k', v') :: t => if k' = k then t else (k', v') :: eraseA k t

/-- Every key occurs at most once (the defining property of a Go map). -/
def keysNodup {α : Type} (m : List (String × α)) : Prop :=
  (m.map Prod.fst).Nodup

/-! ## The log scan (`findCompileHist` of `util.go`) -/

/-- `compileHist` of `main.go`: `start`/`end` are epoch seconds of the
`time.Unix` values, `dur` is the `time.Duration` in nanoseconds.  The Go
`end` field is renamed `endT` (`end` is a Lean keyword). -/
structure CompileHist where
  start : Int
  endT : Int
  dur : Int
  pkgname : String
  pkgversion : String
deriving DecidableEq

/-- The mutable state of the scan loop in `findCompileHist`. `diags` records
the line numbers of the timestamp diagnostics written to stderr. -/
structure ScanState where
  lineno : Nat
  compiles : List CompileHist
  inprogress : List (String × CompileHist)
  unmerges : List (String × CompileHist)
  durations : List (String × List Int)
  diags : List Nat
deriving DecidableEq

/-- The composite key `fmt.Sprintf("%v-%v", package, version)`. -/
def keyOf (p v : List Char) : String := ⟨p ++ '-' :: v⟩

/-- The `compileHist` literal built in the start/unmerge branches: fresh
session with Go zero values for `end` and `dur`. -/
def mkSession (ts : Int) (p v : List Char) : CompileHist :=
  ⟨ts, 0, 0, ⟨p⟩, ⟨v⟩⟩

/-- `durations[c.pkgname] = append(durations[c.pkgname], c.dur)`. -/
def appendDur (k : String) (d : Int) (m : List (String × List Int)) :
    List (String × List Int) :=
  insertA k ((lookupA k m).getD [] ++ [d]) m

/-- The compile-start branch of the scan loop. -/
def startEffect (st : ScanState) (ts : Int) (p v : List Char) : ScanState :=
  { st with inprogress := insertA (keyOf p v) (mkSession ts p v) st.inprogress }

/-- The unmerge-start branch of the scan loop. -/
def unmergeEffect (st : ScanState) (ts : Int) (p v : List Char) : ScanState :=
  { st with unmerges := insertA (keyOf p v) (mkSession ts p v) st.unmerges }

/-- The compile-complete branch of the scan loop (the Go locals `pkgver` and
`c` are inlined; `c.end = dt; c.dur = c.end.Sub(c.start)` becomes the updated
record appended to `compiles` and its duration appended to `durations`). -/
def completeEffect (st : ScanState) (ts : Int) (p v : List Char) : ScanState :=
  match lookupA (keyOf p v) st.inprogress with
  | some c =>
    { st with
      compiles := st.compiles ++ [{ c with endT := ts, dur := durSubNs ts c.start }],
      durations := appendDur c.pkgname (durSubNs ts c.start) st.durations,
      inprogress := eraseA (keyOf p v) st.inprogress }
  | none =>
    match lookupA (keyOf p v) st.unmerges with
    | some _ => { st with unmerges := eraseA (keyOf p v) st.unmerges }
    | none => st

/-- The pattern dispatch of `findCompileHist`: the three `if … continue`
blocks, tried in source order. -/
def dispatch (st : ScanState) (ts : Int) (message : List Char) : ScanState :=
  match compileStartFind message with
  | some (p, v) => startEffect st ts p v
  | none =>
    match unmergeFind message with
    | some (p, v) => unmergeEffect st ts p v
    | none =>
      match compileCompleteFind message with
      | some (p, v) => completeEffect st ts p v
      | none => st

/-- One iteration of the scan loop of `findCompileHist`.  Note that on a
timestamp parse error the diagnostic is printed but the loop does **not**
`continue`: the line is still dispatched, with the error value of
`ParseInt` as its timestamp. -/
def scanStep (st0 : ScanState) (line : String) : ScanState :=
  let st1 := { st0 with lineno := st0.lineno + 1 }
  let fs := goFields line.data
  if fs.length < 2 then st1
  else
    let message := joinSpace (fs.drop 1)
    let pr := parseIntGo (fs.headD []).dropLast
    let st2 :=
      if pr.2 then st1 else { st1 with diags := st1.diags ++ [st1.lineno] }
    dispatch st2 pr.1 message

/-- The scan loop of `findCompileHist` over a whole log. -/
def scanLines (lines : List String) : ScanState :=
  lines.foldl scanStep ⟨0, [], [], [], [], []⟩

/-- `findCompileHist`: scan the log, then keep only the in-flight sessions
whose composite key is in the caller-supplied `running` set. -/
def findCompileHist (lines : List String) (running : String → Bool) :
    List CompileHist × List (String × CompileHist) × List (String × List Int) :=
  let st := scanLines lines
  (st.compiles, st.inprogress.filter (fun kv => running kv.1), st.durations)

/-! ## Statistics (`medDuration`, `avgDuration`) -/

/-- Insert into an ascending list. -/
def insertSorted (x : Int) : List Int → List Int
  | [] => [x]
  | y :: t => if x ≤ y then x :: y :: t else y :: insertSorted x t

/-- `sort.Sort(durs)` with `Less i j = durs[i] < durs[j]`: rearrange into
ascending order (for integer values every correct sort yields this list). -/
def sortDurs : List Int → List Int
  | [] => []
  | x :: t => insertSorted x (sortDurs t)

/-- `medDuration` from `util.go`: sort ascending, then index with the
source's arithmetic (`durs[len/2]` for odd length, `durs[(mpl+mph)/2]` with
`mph = len/2`, `mpl = mph-1` for even length).  Indexing out of range — only
possible for the empty list, which Go answers with a panic — is given the
junk value `0`. -/
def medDuration (durs : List Int) : Int :=
  let s := sortDurs durs
  if durs.length % 2 ≠ 0 then s.getD (durs.length / 2) 0
  else
    let mph := durs.length / 2
    let mpl := mph - 1
    s.getD ((mpl + mph) / 2) 0

/-- `avgDuration` from `main.go`: 64-bit sum of the durations divided by the
count (Go `int64` division truncates toward zero; division by zero — the
empty list — panics in Go and is given the junk value `0` here). -/
def avgDuration (durs : List Int) : Int :=
  Int.tdiv (durs.foldl (fun a t => wrap64 (a + t)) 0) durs.length

/-! ## Live correlation (`showCurrent` of `main.go`) -/

/-- The ETA column value of a `compileStatus` row, with the final
`fmt.Sprintf`/`Round` string rendering abstracted away: `unknown` is the
literal `"unknown"`, `anyTimeNow` the literal `"any time now"`, and
`etaVal d` the rendering of the duration `d` (nanoseconds). -/
inductive EtaStr where
  | unknown
  | anyTimeNow
  | etaVal (ns : Int)
deriving DecidableEq

/-- One row of `showCurrent`'s result (`compileStatus`); `elapsed` is kept
as the duration value in nanoseconds rather than its rendering. -/
structure CompileStatus where
  pkgname : String
  elapsed : Int
  eta : EtaStr
deriving DecidableEq

/-- The eta computation of `showCurrent` for one entry: no history means
`"unknown"`; otherwise `eta := avgDuration(hist) - elapsed` (64-bit
subtraction) and a negative eta is rendered as `"any time now"`. -/
def etaOf (history : List (String × List Int)) (pkgname : String)
    (elapsed : Int) : EtaStr :=
  match lookupA pkgname history with
  | none => .unknown
  | some hist =>
    let eta := wrap64 (avgDuration hist - elapsed)
    if eta < 0 then .anyTimeNow else .etaVal eta

/-- Byte-wise `<` on Go strings (code-point order coincides with byte order
for UTF-8). -/
def lexLt : List Char → List Char → Bool
  | [], [] => false
  | [], _ :: _ => true
  | _ :: _, [] => false
  | a :: as, b :: bs => if a < b then true else if b < a then false else lexLt as bs

/-- Insert into a list ascending under `ByPkgname`'s ordering. -/
def insertByPkg (x : CompileStatus) : List CompileStatus → List CompileStatus
  | [] => [x]
  | y :: t =>
    if lexLt y.pkgname.data x.pkgname.data then y :: insertByPkg x t
    else x :: y :: t

/-- `sort.Sort(ByPkgname(ret))`. -/
def sortByPkg : List CompileStatus → List CompileStatus
  | [] => []
  | x :: t => insertByPkg x (sortByPkg t)

/-- `showCurrent` from `main.go` (the `longest` column-width output and the
string renderings are presentation and are not modelled): for each in-flight
session compute `elapsed = now - start` and the eta, then sort by package
name. -/
def showCurrent (now : Int) (curr : List (String × CompileHist))
    (history : List (String × List Int)) : List CompileStatus :=
  if curr.isEmpty then []
  else
    sortByPkg (curr.map (fun kv =>
      let elapsed := durSubNs now kv.2.start
      ⟨kv.1, elapsed, etaOf history kv.2.pkgname elapsed⟩))

/-! ## `runningCompiles` (`util.go`) -/

/-- A process record as consumed by `runningCompiles`: its command-line
argument vector. -/
structure GoProcess where
  cmdline : List String
deriving DecidableEq

/-- `runningCompile` from `util.go`. -/
structure RunningCompile where
  pkg : String
  start : Int
  phase : String
deriving DecidableEq

/-- `strings.HasPrefix(args[0], "[") && strings.HasSuffix(args[0], "sandbox")`
together with `len(args) > 1`: the test selecting sandbox worker processes. -/
def sandboxShaped (pr : GoProcess) : Bool :=
  match pr.cmdline with
  | a0 :: _ :: _ =>
    (dropLit "[".data a0.data).isSome &&
    (dropLit "xobdnas".data a0.data.reverse).isSome
  | _ => false

/-- `strings.Split(p.Cmdline[0][1:], "]")[0]`: the package identifier between
the opening bracket and the first `]`. -/
def pkgOf (pr : GoProcess) : List Char :=
  match pr.cmdline with
  | a0 :: _ => (a0.data.drop 1).takeWhile (fun c => c ≠ ']')
  | [] => []

/-- The last space-separated token of the final argument (the build phase). -/
def phaseOf (pr : GoProcess) : List Char :=
  match pr.cmdline.getLast? with
  | some a => ((a.data.reverse.takeWhile (fun c => c ≠ ' ')).reverse)
  | none => []

/-- The loop body of `runningCompiles` over an already-acquired process
snapshot, with the global `latestStart` map passed explicitly.
`Except.error ()` models the runtime panic raised inside `splitpkgver`
(`getReMatches` indexes the `nil` submatch slice) when the extracted package
identifier contains no `PACKAGE-VERSION` shaped substring. -/
def runningCompilesGo (ls : List (String × Int)) :
    List GoProcess → List RunningCompile → Except Unit (List RunningCompile)
  | [], acc => Except.ok acc
  | pr :: t, acc =>
    if sandboxShaped pr then
      match splitpkgverFind (pkgOf pr) with
      | none => Except.error ()
      | some (p, _) =>
        match lookupA ⟨p⟩ ls with
        | some ct =>
          runningCompilesGo ls t (acc ++ [⟨⟨pkgOf pr⟩, ct, ⟨phaseOf pr⟩⟩])
        | none => runningCompilesGo ls t acc
    else runningCompilesGo ls t acc

/-- `runningCompiles` given a process snapshot and the `latestStart` map. -/
def runningCompiles (procs : List GoProcess) (ls : List (String × Int)) :
    Except Unit (List RunningCompile) :=
  runningCompilesGo ls procs []

/-- A string contains a `PACKAGE-VERSION` shaped substring: a non-empty run
of package characters, a hyphen, a digit, and at least one further non-space
character.  This is the declarative domain condition of `splitpkgver`. -/
def HasPkgVer (s : List Char) : Prop :=
  ∃ u p d c r, s = u ++ p ++ '-' :: d :: c :: r ∧ p ≠ [] ∧
    (∀ a ∈ p, isPkgChar a = true) ∧ isDigitCh d = true ∧ c ≠ ' '

/-! ## Sorting lemmas -/

theorem insertSorted_perm (x : Int) (l : List Int) :
    (insertSorted x l).Perm (x :: l) := by
  induction l with
  | nil => simp [insertSorted]
  | cons y t ih =>
    simp only [insertSorted]
    split
    · exact List.Perm.refl _
    · exact (ih.cons y).trans (List.Perm.swap x y t)

theorem insertSorted_sorted (x : Int) (l : List Int)
    (h : l.Sorted (· ≤ ·)) : (insertSorted x l).Sorted (· ≤ ·) := by
  induction l with
  | nil => simp [insertSorted]
  | cons y t ih =>
    rw [List.sorted_cons] at h
    simp only [insertSorted]
    split
    · rename_i hxy
      rw [List.sorted_cons]
      refine ⟨?_, List.sorted_cons.mpr h⟩
      intro b hb
      rcases List.mem_cons.mp hb with hb | hb
      · omega
      · exact le_trans hxy (h.1 b hb)
    · rename_i hxy
      rw [List.sorted_cons]
      refine ⟨?_, ih h.2⟩
      intro b hb
      rcases List.mem_cons.mp ((insertSorted_perm x t).mem_iff.mp hb) with
        hb | hb
      · omega
      · exact h.1 b hb

theorem sortDurs_perm (l : List Int) : (sortDurs l).Perm l := by
  induction l with
  | nil => exact List.Perm.refl _
  | cons x t ih => exact (insertSorted_perm x (sortDurs t)).trans (ih.cons x)

theorem sortDurs_sorted (l : List Int) : (sortDurs l).Sorted (· ≤ ·) := by
  induction l with
  | nil => simp [sortDurs]
  | cons x t ih => exact insertSorted_sorted x (sortDurs t) ih

theorem sortDurs_length (l : List Int) : (sortDurs l).length = l.length :=
  (sortDurs_perm l).length_eq

/-- C2: for every non-empty duration list, `medDuration` sorts ascending and
returns the element at index `n/2` for odd `n` and at index
`(lowerMid + upperMid) / 2` (integer division of the two middle indices) for
even `n`; the result is always a member of the list, so the two middle
values are never averaged. -/
theorem claim_C2_median (l : List Int) (h : l ≠ []) :
    medDuration l ∈ l ∧
    ∀ s : List Int, s.Perm l → s.Sorted (· ≤ ·) →
      medDuration l =
        if l.length % 2 ≠ 0 then s.getD (l.length / 2) 0
        else s.getD ((l.length / 2 - 1 + l.length / 2) / 2) 0 := by
  have hlen : 0 < l.length := List.length_pos.mpr h
  have hidx : (if l.length % 2 ≠ 0 then l.length / 2
      else (l.length / 2 - 1 + l.length / 2) / 2) < l.length := by
    split <;> omega
  have hmed : medDuration l =
      if l.length % 2 ≠ 0 then (sortDurs l).getD (l.length / 2) 0
      else (sortDurs l).getD ((l.length / 2 - 1 + l.length / 2) / 2) 0 := rfl
  constructor
  · have hidx' : (if l.length % 2 ≠ 0 then l.length / 2
        else (l.length / 2 - 1 + l.length / 2) / 2) < (sortDurs l).length := by
      rw [sortDurs_length]; exact hidx
    have : medDuration l ∈ sortDurs l := by
      rw [hmed]
      split
      · rename_i hodd
        simp only [if_pos hodd] at hidx'
        rw [List.getD_eq_getElem _ _ hidx']
        exact List.getElem_mem hidx'
      · rename_i hodd
        simp only [if_neg hodd] at hidx'
        rw [List.getD_eq_getElem _ _ hidx']
        exact List.getElem_mem hidx'
    exact (sortDurs_perm l).mem_iff.mp this
  · intro s hperm hsort
    have hs : s = sortDurs l :=
      List.eq_of_perm_of_sorted (hperm.trans (sortDurs_perm l).symm) hsort
        (sortDurs_sorted l)
    rw [hs, hmed]

/-! ## Map lemmas -/

theorem lookupA_filter {α : Type} (running : String → Bool) (k : String)
    (m : List (String × α)) :
    lookupA k (m.filter (fun kv => running kv.1)) =
      if running k then lookupA k m else none := by
  induction m with
  | nil => simp [lookupA]
  | cons kv t ih =>
    obtain ⟨k', v⟩ := kv
    rw [List.filter_cons]
    by_cases hr : running k'
    · rw [if_pos (by simpa using hr)]
      by_cases hk : k' = k
      · subst hk
        simp [lookupA, hr]
      · simp only [lookupA, if_neg hk]
        exact ih
    · rw [if_neg (by simpa using hr)]
      rw [ih]
      by_cases hk : k' = k
      · subst hk
        simp only [lookupA, if_pos rfl]
        simp [hr]
      · simp only [lookupA, if_neg hk]

theorem lookupA_insertA_self {α : Type} (k : String) (v : α)
    (m : List (String × α)) : lookupA k (insertA k v m) = some v := by
  induction m with
  | nil => simp [insertA, lookupA]
  | cons kv t ih =>
    obtain ⟨k', v'⟩ := kv
    by_cases hk : k' = k
    · simp [insertA, hk, lookupA]
    · simp [insertA, hk, lookupA, ih]

theorem insertA_map_fst {α : Type} (k : String) (v : α)
    (m : List (String × α)) :
    (insertA k v m).map Prod.fst = m.map Prod.fst ∨
    (insertA k v m).map Prod.fst = m.map Prod.fst ++ [k] := by
  induction m with
  | nil => right; simp [insertA]
  | cons kv t ih =>
    obtain ⟨k', v'⟩ := kv
    by_cases hk : k' = k
    · left; simp [insertA, hk]
    · rcases ih with ih | ih
      · left; simp [insertA, hk, ih]
      · right; simp [insertA, hk, ih]

theorem insertA_keysNodup {α : Type} (k : String) (v : α)
    (m : List (String × α)) (h : keysNodup m) :
    keysNodup (insertA k v m) := by
  induction m with
  | nil => simp [insertA, keysNodup]
  | cons kv t ih =>
    obtain ⟨k', v'⟩ := kv
    simp only [keysNodup, List.map_cons, List.nodup_cons] at h
    by_cases hk : k' = k
    · rw [show insertA k v ((k', v') :: t) = (k, v) :: t by
        simp [insertA, hk]]
      simp only [keysNodup, List.map_cons, List.nodup_cons]
      rw [← hk]
      exact h
    · rw [show insertA k v ((k', v') :: t) = (k', v') :: insertA k v t by
        simp [insertA, hk]]
      simp only [keysNodup, List.map_cons, List.nodup_cons]
      refine ⟨?_, ih h.2⟩
      intro hmem
      rcases insertA_map_fst k v t with he | he
      · rw [he] at hmem; exact h.1 hmem
      · rw [he] at hmem
        rcases List.mem_append.mp hmem with hmem | hmem
        · exact h.1 hmem
        · simp only [List.mem_singleton] at hmem
          exact hk hmem

theorem eraseA_map_fst_sublist {α : Type} (k : String)
    (m : List (String × α)) :
    ((eraseA k m).map Prod.fst).Sublist (m.map Prod.fst) := by
  induction m with
  | nil => simp [eraseA]
  | cons kv t ih =>
    obtain ⟨k', v'⟩ := kv
    by_cases hk : k' = k
    · simp only [eraseA, if_pos hk, List.map_cons]
      exact (List.sublist_cons_self _ _)
    · simp only [eraseA, if_neg hk, List.map_cons]
      exact ih.cons₂ k'

theorem eraseA_keysNodup {α : Type} (k : String) (m : List (String × α))
    (h : keysNodup m) : keysNodup (eraseA k m) :=
  List.Nodup.sublist (eraseA_map_fst_sublist k m) h

/-- C6: the report returned by `findCompileHist` contains exactly the
in-flight sessions of the finished scan whose composite key is in the
caller-supplied `running` set. -/
theorem claim_C6_running_filter (lines : List String)
    (running : String → Bool) (k : String) :
    lookupA k (findCompileHist lines running).2.1 =
      if running k then lookupA k (scanLines lines).inprogress else none := by
  simp only [findCompileHist]
  exact lookupA_filter running k (scanLines lines).inprogress

/-- C4: the spec requires a line whose first token does not parse as a
base-10 integer to be diagnosed and then skipped with no state change, but
`findCompileHist` (and `parselog`) lack the `continue` present in
`findMedDurations`: the diagnostic for line 1 is emitted, yet the line is
still processed with the `ParseInt` error value `0` as its timestamp and a
session is created. -/
theorem claim_C4_divergence :
    (scanLines ["BAD: >>> emerge (1 of 2) app-shells/bash-4.4 to /"]).diags
        = [1] ∧
    (scanLines ["BAD: >>> emerge (1 of 2) app-shells/bash-4.4 to /"]).inprogress
        = [("app-shells/bash-4.4",
            ⟨0, 0, 0, "app-shells/bash", "4.4"⟩)] := by
  constructor <;> decide

/-- Witness for C2: over `[1, 3]` the function returns `1` (the element at
index `(0 + 1) / 2 = 0` of the sorted list), not the value average `2`. -/
theorem claim_C2_witness : medDuration [1, 3] = 1 := by
  rw [(claim_C2_median [1, 3] (by decide)).2 [1, 3] (List.Perm.refl _)
    (by decide)]
  decide

/-! ## Frame lemmas for the scan step -/

theorem completeEffect_miss (st : ScanState) (ts : Int) (p v : List Char)
    (hip : lookupA (keyOf p v) st.inprogress = none)
    (hum : lookupA (keyOf p v) st.unmerges = none) :
    completeEffect st ts p v = st := by
  simp only [completeEffect, hip, hum]

theorem completeEffect_inprogress (st : ScanState) (ts : Int)
    (p v : List Char) :
    (completeEffect st ts p v).inprogress = st.inprogress ∨
    (completeEffect st ts p v).inprogress =
      eraseA (keyOf p v) st.inprogress := by
  cases hl : lookupA (keyOf p v) st.inprogress with
  | some c =>
    right
    simp only [completeEffect, hl]
  | none =>
    cases hm : lookupA (keyOf p v) st.unmerges with
    | some c =>
      left
      simp only [completeEffect, hl, hm]
    | none =>
      left
      simp only [completeEffect, hl, hm]

theorem completeEffect_compiles (st : ScanState) (ts : Int)
    (p v : List Char) :
    (completeEffect st ts p v).compiles = st.compiles ∨
    ∃ c : CompileHist,
      (completeEffect st ts p v).compiles = st.compiles ++ [c] ∧
      c.dur = durSubNs c.endT c.start := by
  cases hl : lookupA (keyOf p v) st.inprogress with
  | some c =>
    right
    refine ⟨{ c with endT := ts, dur := durSubNs ts c.start }, ?_, rfl⟩
    simp only [completeEffect, hl]
  | none =>
    cases hm : lookupA (keyOf p v) st.unmerges with
    | some c =>
      left
      simp only [completeEffect, hl, hm]
    | none =>
      left
      simp only [completeEffect, hl, hm]

theorem dispatch_inprogress (st : ScanState) (ts : Int) (msg : List Char) :
    (dispatch st ts msg).inprogress = st.inprogress ∨
    (∃ k c, (dispatch st ts msg).inprogress = insertA k c st.inprogress) ∨
    ∃ k, (dispatch st ts msg).inprogress = eraseA k st.inprogress := by
  cases hs : compileStartFind msg with
  | some pv =>
    obtain ⟨p, v⟩ := pv
    have hd : dispatch st ts msg = startEffect st ts p v := by
      simp only [dispatch, hs]
    rw [hd]
    right; left
    exact ⟨keyOf p v, mkSession ts p v, rfl⟩
  | none =>
    cases hu : unmergeFind msg with
    | some pv =>
      obtain ⟨p, v⟩ := pv
      have hd : dispatch st ts msg = unmergeEffect st ts p v := by
        simp only [dispatch, hs, hu]
      rw [hd]
      left; rfl
    | none =>
      cases hc : compileCompleteFind msg with
      | none =>
        have hd : dispatch st ts msg = st := by
          simp only [dispatch, hs, hu, hc]
        rw [hd]
        left; rfl
      | some pv =>
        obtain ⟨p, v⟩ := pv
        have hd : dispatch st ts msg = completeEffect st ts p v := by
          simp only [dispatch, hs, hu, hc]
        rw [hd]
        rcases completeEffect_inprogress st ts p v with h | h
        · left; exact h
        · right; right; exact ⟨keyOf p v, h⟩

theorem dispatch_compiles (st : ScanState) (ts : Int) (msg : List Char) :
    (dispatch st ts msg).compiles = st.compiles ∨
    ∃ c : CompileHist, (dispatch st ts msg).compiles = st.compiles ++ [c] ∧
      c.dur = durSubNs c.endT c.start := by
  cases hs : compileStartFind msg with
  | some pv =>
    obtain ⟨p, v⟩ := pv
    have hd : dispatch st ts msg = startEffect st ts p v := by
      simp only [dispatch, hs]
    rw [hd]
    left; rfl
  | none =>
    cases hu : unmergeFind msg with
    | some pv =>
      obtain ⟨p, v⟩ := pv
      have hd : dispatch st ts msg = unmergeEffect st ts p v := by
        simp only [dispatch, hs, hu]
      rw [hd]
      left; rfl
    | none =>
      cases hc : compileCompleteFind msg with
      | none =>
        have hd : dispatch st ts msg = st := by
          simp only [dispatch, hs, hu, hc]
        rw [hd]
        left; rfl
      | some pv =>
        obtain ⟨p, v⟩ := pv
        have hd : dispatch st ts msg = completeEffect st ts p v := by
          simp only [dispatch, hs, hu, hc]
        rw [hd]
        exact completeEffect_compiles st ts p v

/-- Reduce `scanStep` on a well-formed line (two or more fields, parseable
timestamp) to the pattern dispatch. -/
theorem scanStep_eq (st : ScanState) (line : String) (f0 : List Char)
    (fs1 : List (List Char)) (hf : goFields line.data = f0 :: fs1)
    (hne : fs1 ≠ []) (hok : (parseIntGo f0.dropLast).2 = true) :
    scanStep st line =
      dispatch { st with lineno := st.lineno + 1 }
        (parseIntGo f0.dropLast).1 (joinSpace fs1) := by
  have hlen : ¬ ((f0 :: fs1).length < 2) := by
    cases fs1 with
    | nil => exact absurd rfl hne
    | cons a t => simp
  simp only [scanStep, hf, List.headD_cons, List.drop_succ_cons,
    List.drop_zero, hok, if_true, if_neg hlen]

theorem dispatch_inprogress_rel (st2 st : ScanState) (ts : Int)
    (msg : List Char) (hs : st2.inprogress = st.inprogress) :
    (dispatch st2 ts msg).inprogress = st.inprogress ∨
    (∃ k c, (dispatch st2 ts msg).inprogress = insertA k c st.inprogress) ∨
    ∃ k, (dispatch st2 ts msg).inprogress = eraseA k st.inprogress := by
  rw [← hs]
  exact dispatch_inprogress st2 ts msg

theorem dispatch_compiles_rel (st2 st : ScanState) (ts : Int)
    (msg : List Char) (hs : st2.compiles = st.compiles) :
    (dispatch st2 ts msg).compiles = st.compiles ∨
    ∃ c : CompileHist, (dispatch st2 ts msg).compiles = st.compiles ++ [c] ∧
      c.dur = durSubNs c.endT c.start := by
  rw [← hs]
  exact dispatch_compiles st2 ts msg

theorem scanStep_inprogress (st : ScanState) (line : String) :
    (scanStep st line).inprogress = st.inprogress ∨
    (∃ k c, (scanStep st line).inprogress = insertA k c st.inprogress) ∨
    ∃ k, (scanStep st line).inprogress = eraseA k st.inprogress := by
  simp only [scanStep]
  split
  · left; rfl
  · exact dispatch_inprogress_rel _ st _ _ (by split <;> rfl)

theorem scanStep_compiles (st : ScanState) (line : String) :
    (scanStep st line).compiles = st.compiles ∨
    ∃ c : CompileHist, (scanStep st line).compiles = st.compiles ++ [c] ∧
      c.dur = durSubNs c.endT c.start := by
  simp only [scanStep]
  split
  · left; rfl
  · exact dispatch_compiles_rel _ st _ _ (by split <;> rfl)

theorem scanStep_keysNodup (st : ScanState) (line : String)
    (h : keysNodup st.inprogress) : keysNodup (scanStep st line).inprogress := by
  rcases scanStep_inprogress st line with he | ⟨k, c, he⟩ | ⟨k, he⟩
  · rw [he]; exact h
  · rw [he]; exact insertA_keysNodup k c _ h
  · rw [he]; exact eraseA_keysNodup k _ h

theorem scanLines_nodup_aux (ls : List String) :
    ∀ st : ScanState, keysNodup st.inprogress →
      keysNodup (ls.foldl scanStep st).inprogress := by
  induction ls with
  | nil => intro st h; simpa using h
  | cons l t ih =>
    intro st h
    rw [List.foldl_cons]
    exact ih (scanStep st l) (scanStep_keysNodup st l h)

theorem scanLines_inprogress_nodup (ls : List String) :
    keysNodup (scanLines ls).inprogress :=
  scanLines_nodup_aux ls ⟨0, [], [], [], [], []⟩ (by simp [keysNodup])

/-- C3: (a) after scanning any log the in-flight map has at most one session
per composite key; (b) a well-formed second build-start line with an already
present composite key is processed by replacing that key's session in place:
the new state differs from the old only in the line counter and in the
in-flight binding of that key — no diagnostic, no other map is touched — and
the key now maps to the new session (last-start-wins). -/
theorem claim_C3_last_start_wins (st : ScanState) (line : String)
    (f0 : List Char) (fs1 : List (List Char)) (ts : Int) (p v : List Char)
    (hf : goFields line.data = f0 :: fs1) (hne : fs1 ≠ [])
    (hts : parseIntGo f0.dropLast = (ts, true))
    (hst : compileStartFind (joinSpace fs1) = some (p, v)) :
    scanStep st line =
      { st with
          lineno := st.lineno + 1
          inprogress := insertA (keyOf p v) (mkSession ts p v) st.inprogress } ∧
    lookupA (keyOf p v) (scanStep st line).inprogress =
      some (mkSession ts p v) ∧
    (keysNodup st.inprogress → keysNodup (scanStep st line).inprogress) ∧
    (∀ ls : List String, keysNodup (scanLines ls).inprogress) := by
  have hok : (parseIntGo f0.dropLast).2 = true := by rw [hts]
  have hv : (parseIntGo f0.dropLast).1 = ts := by rw [hts]
  have h1 : scanStep st line =
      { st with
          lineno := st.lineno + 1
          inprogress := insertA (keyOf p v) (mkSession ts p v) st.inprogress }
      := by
    rw [scanStep_eq st line f0 fs1 hf hne hok, hv]
    simp only [dispatch, hst]
    rfl
  refine ⟨h1, ?_, ?_, fun ls => scanLines_inprogress_nodup ls⟩
  · rw [h1]
    exact lookupA_insertA_self _ _ _
  · intro hnd
    exact scanStep_keysNodup st line hnd

/-- C5: a well-formed build-complete line whose composite key is in neither
the in-flight map nor the removal map is a complete no-op apart from the
line counter: no `CompletedCompile`, no duration sample, no map change and
no diagnostic. -/
theorem claim_C5_orphan_noop (st : ScanState) (line : String)
    (f0 : List Char) (fs1 : List (List Char)) (ts : Int) (p v : List Char)
    (hf : goFields line.data = f0 :: fs1) (hne : fs1 ≠ [])
    (hts : parseIntGo f0.dropLast = (ts, true))
    (hns : compileStartFind (joinSpace fs1) = none)
    (hnu : unmergeFind (joinSpace fs1) = none)
    (hc : compileCompleteFind (joinSpace fs1) = some (p, v))
    (hip : lookupA (keyOf p v) st.inprogress = none)
    (hum : lookupA (keyOf p v) st.unmerges = none) :
    scanStep st line = { st with lineno := st.lineno + 1 } := by
  have hok : (parseIntGo f0.dropLast).2 = true := by rw [hts]
  have hv : (parseIntGo f0.dropLast).1 = ts := by rw [hts]
  rw [scanStep_eq st line f0 fs1 hf hne hok, hv]
  simp only [dispatch, hns, hnu, hc]
  exact completeEffect_miss _ ts p v hip hum

/-! ## Duration arithmetic lemmas -/

theorem durSubNs_nonneg (e s : Int) (h : s ≤ e) : 0 ≤ durSubNs e s := by
  have hd : 0 ≤ (e - s) * 1000000000 :=
    mul_nonneg (by omega) (by norm_num)
  unfold durSubNs
  simp only [minDur, maxDur]
  generalize hgen : (e - s) * 1000000000 = d at hd ⊢
  split_ifs <;> omega

theorem durSubNs_eq_of_fits (e s : Int)
    (h1 : minDur ≤ (e - s) * 1000000000)
    (h2 : (e - s) * 1000000000 ≤ maxDur) :
    durSubNs e s = (e - s) * 1000000000 := by
  unfold durSubNs
  simp only [minDur, maxDur] at h1 h2 ⊢
  generalize hgen : (e - s) * 1000000000 = d at h1 h2 ⊢
  split_ifs <;> omega

theorem scanLines_dur_aux (ls : List String) :
    ∀ st : ScanState, (∀ c ∈ st.compiles, c.dur = durSubNs c.endT c.start) →
      ∀ c ∈ (ls.foldl scanStep st).compiles,
        c.dur = durSubNs c.endT c.start := by
  induction ls with
  | nil => intro st h; simpa using h
  | cons l t ih =>
    intro st h c hc
    rw [List.foldl_cons] at hc
    refine ih (scanStep st l) ?_ c hc
    intro c' hc'
    rcases scanStep_compiles st l with he | ⟨c'', he, hd⟩
    · rw [he] at hc'
      exact h c' hc'
    · rw [he] at hc'
      rcases List.mem_append.mp hc' with hm | hm
      · exact h c' hm
      · rw [List.mem_singleton.mp hm]
        exact hd

/-- C1 (amended): every completed compile records `dur` as the saturating
`time.Time.Sub` of its end and start timestamps: it equals the timestamp
difference in nanoseconds whenever that difference fits in a signed 64-bit
duration, and it is non-negative whenever the start timestamp is at most the
end timestamp. -/
theorem claim_C1_amended (lines : List String) (running : String → Bool)
    (c : CompileHist) (hc : c ∈ (findCompileHist lines running).1) :
    c.dur = durSubNs c.endT c.start ∧
    (minDur ≤ (c.endT - c.start) * 1000000000 →
      (c.endT - c.start) * 1000000000 ≤ maxDur →
      c.dur = (c.endT - c.start) * 1000000000) ∧
    (c.start ≤ c.endT → 0 ≤ c.dur) := by
  have hdur : c.dur = durSubNs c.endT c.start := by
    refine scanLines_dur_aux lines ⟨0, [], [], [], [], []⟩ ?_ c hc
    intro c' hc'
    simp at hc'
  refine ⟨hdur, ?_, ?_⟩
  · intro h1 h2
    rw [hdur]
    exact durSubNs_eq_of_fits _ _ h1 h2
  · intro h
    rw [hdur]
    exact durSubNs_nonneg _ _ h

/-- C1, counterexample to the claim as stated: with a start at epoch second
`0` and a completion at epoch second `9223372037`, the difference does not
fit in a 64-bit nanosecond count, so `time.Time.Sub` saturates: the recorded
duration is `2^63 - 1` nanoseconds, not the timestamp difference. -/
theorem claim_C1_counterexample :
    (findCompileHist ["0: >>> emerge (1 of 1) a-1b to /",
        "9223372037: ::: completed emerge (1 of 1) a-1b to /"]
      (fun _ => false)).1 =
      [⟨0, 9223372037, 9223372036854775807, "a", "1b"⟩] ∧
    (9223372036854775807 : Int) ≠ (9223372037 - 0) * 1000000000 := by
  constructor <;> decide

/-- Witness for C1 (amended), at a log with a 50-second compile. -/
theorem claim_C1_witness :
    (0 : Int) ≤ (⟨100, 150, 50000000000, "a", "1b"⟩ : CompileHist).dur :=
  (claim_C1_amended ["100: >>> emerge (1 of 1) a-1b to /",
      "150: ::: completed emerge (1 of 1) a-1b to /"] (fun _ => false)
    ⟨100, 150, 50000000000, "a", "1b"⟩ (by decide)).2.2 (by decide)

/-- Witness for C3: a second start line for `a-1b` at timestamp 7 replaces
the in-flight session recorded at timestamp 1. -/
theorem claim_C3_witness :
    lookupA (keyOf "a".data "1b".data)
      (scanStep ⟨3, [], [("a-1b", mkSession 1 "a".data "1b".data)], [], [], []⟩
        "7: >>> emerge (2 of 3) a-1b to /").inprogress =
      some (mkSession 7 "a".data "1b".data) :=
  (claim_C3_last_start_wins
    ⟨3, [], [("a-1b", mkSession 1 "a".data "1b".data)], [], [], []⟩
    "7: >>> emerge (2 of 3) a-1b to /" "7:".data
    ([">>>", "emerge", "(2", "of", "3)", "a-1b", "to", "/"].map String.data)
    7 "a".data "1b".data (by decide) (by decide) (by decide) (by decide)).2.1

/-- Witness for C5: an orphaned completion of `x/y-1.0` leaves every map and
list of a populated state unchanged, bumping only the line counter. -/
theorem claim_C5_witness :
    scanStep ⟨3, [], [("x/y-2.0", mkSession 1 "x/y".data "2.0".data)],
        [("z-1a", mkSession 2 "z".data "1a".data)], [("p", [5])], []⟩
        "10: ::: completed emerge (1 of 2) x/y-1.0 to /" =
      ⟨4, [], [("x/y-2.0", mkSession 1 "x/y".data "2.0".data)],
        [("z-1a", mkSession 2 "z".data "1a".data)], [("p", [5])], []⟩ :=
  claim_C5_orphan_noop
    ⟨3, [], [("x/y-2.0", mkSession 1 "x/y".data "2.0".data)],
      [("z-1a", mkSession 2 "z".data "1a".data)], [("p", [5])], []⟩
    "10: ::: completed emerge (1 of 2) x/y-1.0 to /" "10:".data
    ([":::", "completed", "emerge", "(1", "of", "2)", "x/y-1.0", "to",
      "/"].map String.data)
    10 "x/y".data "1.0".data (by decide) (by decide) (by decide) (by decide)
    (by decide) (by decide) (by decide) (by decide)

/-- C8, counterexample to mutual exclusivity as stated: the message
`>>> emerge (1 of 2) a-1b to /` is matched both by the build-start pattern
and by the restart-heuristic pattern `>>> emerge \(1 of`. -/
theorem claim_C8_counterexample :
    (compileStartFind ">>> emerge (1 of 2) a-1b to /".data).isSome = true ∧
    firstPackageMatch ">>> emerge (1 of 2) a-1b to /".data = true := by
  constructor <;> decide

/-- C8 (amended): the four patterns are not mutually exclusive — the
restart-heuristic matches every build-start line with index 1 — but the scan
dispatch is first-match-wins, so every line is processed by at most one of
the three session-extraction branches: a start match is processed as a start
only (no other list or map is touched), an unmerge match only as an unmerge,
and only a line matching neither is processed as a completion. -/
theorem claim_C8_amended (st : ScanState) (ts : Int) (msg : List Char) :
    (∀ p v, compileStartFind msg = some (p, v) →
      dispatch st ts msg = startEffect st ts p v ∧
      (startEffect st ts p v).compiles = st.compiles ∧
      (startEffect st ts p v).unmerges = st.unmerges ∧
      (startEffect st ts p v).durations = st.durations ∧
      (startEffect st ts p v).diags = st.diags) ∧
    (∀ p v, compileStartFind msg = none → unmergeFind msg = some (p, v) →
      dispatch st ts msg = unmergeEffect st ts p v ∧
      (unmergeEffect st ts p v).compiles = st.compiles ∧
      (unmergeEffect st ts p v).inprogress = st.inprogress ∧
      (unmergeEffect st ts p v).durations = st.durations) ∧
    (∀ p v, compileStartFind msg = none → unmergeFind msg = none →
      compileCompleteFind msg = some (p, v) →
      dispatch st ts msg = completeEffect st ts p v) := by
  refine ⟨?_, ?_, ?_⟩
  · intro p v hs
    exact ⟨by simp only [dispatch, hs], rfl, rfl, rfl, rfl⟩
  · intro p v hs hu
    exact ⟨by simp only [dispatch, hs, hu], rfl, rfl, rfl⟩
  · intro p v hs hu hc
    simp only [dispatch, hs, hu, hc]

/-- Witness for C8 (amended): the doubly-matched restart/start line is
processed as a build-start only. -/
theorem claim_C8_witness :
    dispatch ⟨0, [], [], [], [], []⟩ 5 ">>> emerge (1 of 2) a-1b to /".data =
      startEffect ⟨0, [], [], [], [], []⟩ 5 "a".data "1b".data :=
  ((claim_C8_amended ⟨0, [], [], [], [], []⟩ 5
      ">>> emerge (1 of 2) a-1b to /".data).1 "a".data "1b".data
    (by decide)).1

/-! ## Live-correlation lemmas (C9) -/

theorem insertByPkg_perm (x : CompileStatus) (l : List CompileStatus) :
    (insertByPkg x l).Perm (x :: l) := by
  induction l with
  | nil => simp [insertByPkg]
  | cons y t ih =>
    simp only [insertByPkg]
    split
    · exact (ih.cons y).trans (List.Perm.swap x y t)
    · exact List.Perm.refl _

theorem sortByPkg_perm (l : List CompileStatus) : (sortByPkg l).Perm l := by
  induction l with
  | nil => exact List.Perm.refl _
  | cons x t ih => exact (insertByPkg_perm x (sortByPkg t)).trans (ih.cons x)

theorem wrap64_eq_of_fits (x : Int) (h1 : minDur ≤ x) (h2 : x ≤ maxDur) :
    wrap64 x = x := by
  simp only [minDur, maxDur] at h1 h2
  unfold wrap64
  rw [Int.emod_eq_of_lt (by omega) (by omega)]
  omega

theorem mem_showCurrent (now : Int) (curr : List (String × CompileHist))
    (history : List (String × List Int)) (k : String) (data : CompileHist)
    (hmem : (k, data) ∈ curr) :
    (⟨k, durSubNs now data.start,
        etaOf history data.pkgname (durSubNs now data.start)⟩ :
      CompileStatus) ∈ showCurrent now curr history := by
  have hne : curr.isEmpty = false := by
    cases curr with
    | nil => simp at hmem
    | cons a t => rfl
  unfold showCurrent
  rw [hne]
  simp only [Bool.false_eq_true, if_false]
  refine (sortByPkg_perm _).mem_iff.mpr ?_
  exact List.mem_map_of_mem _ hmem

/-- C9 (amended): for every running compile, a package with no duration
history reports `"unknown"`; with history `h`, the code computes the 64-bit
difference `avgDuration h - elapsed` (with `elapsed` the saturating
`time.Now().Sub(start)`): a negative value reports `"any time now"` and a
non-negative one reports that value; whenever the true difference fits in a
signed 64-bit duration the wrapped difference coincides with it, so the
behaviour is the one the claim states except under 64-bit overflow. -/
theorem claim_C9_amended (now : Int) (curr : List (String × CompileHist))
    (history : List (String × List Int)) (k : String) (data : CompileHist)
    (hmem : (k, data) ∈ curr) (e : Int)
    (he : e = durSubNs now data.start) :
    (lookupA data.pkgname history = none →
      (⟨k, e, .unknown⟩ : CompileStatus) ∈ showCurrent now curr history) ∧
    (∀ h : List Int, lookupA data.pkgname history = some h →
      (wrap64 (avgDuration h - e) < 0 →
        (⟨k, e, .anyTimeNow⟩ : CompileStatus) ∈
          showCurrent now curr history) ∧
      (0 ≤ wrap64 (avgDuration h - e) →
        (⟨k, e, .etaVal (wrap64 (avgDuration h - e))⟩ : CompileStatus) ∈
          showCurrent now curr history) ∧
      (minDur ≤ avgDuration h - e → avgDuration h - e ≤ maxDur →
        wrap64 (avgDuration h - e) = avgDuration h - e)) := by
  subst he
  have hbase := mem_showCurrent now curr history k data hmem
  constructor
  · intro hn
    have : etaOf history data.pkgname (durSubNs now data.start) = .unknown := by
      simp only [etaOf, hn]
    rw [this] at hbase
    exact hbase
  · intro h hh
    refine ⟨?_, ?_, fun h1 h2 => wrap64_eq_of_fits _ h1 h2⟩
    · intro hlt
      have : etaOf history data.pkgname (durSubNs now data.start) =
          .anyTimeNow := by
        simp only [etaOf, hh]
        rw [if_pos hlt]
      rw [this] at hbase
      exact hbase
    · intro hge
      have : etaOf history data.pkgname (durSubNs now data.start) =
          .etaVal (wrap64 (avgDuration h - durSubNs now data.start)) := by
        simp only [etaOf, hh]
        rw [if_neg (by omega)]
      rw [this] at hbase
      exact hbase

/-- C9, counterexample to the claim as stated: history holds one negative
duration (start 100, completion 99 in the log gives `-1s`), and the session
started so far in the past that `elapsed` saturates at the maximal duration;
the true difference `avg - elapsed` is negative, but the 64-bit subtraction
wraps to a positive value, so the code reports a (huge) concrete ETA instead
of the `"any time now"` sentinel. -/
theorem claim_C9_counterexample :
    avgDuration [-1000000000] - durSubNs 1700000000 (-7600000000) < 0 ∧
    showCurrent 1700000000 [("p-1", ⟨-7600000000, 0, 0, "p", "1"⟩)]
        [("p", [-1000000000])] =
      [⟨"p-1", 9223372036854775807, .etaVal 9223372035854775809⟩] := by
  constructor <;> decide

/-- Witness for C9 (amended): with 50s of history and 20s elapsed the
reported ETA is the 30s difference. -/
theorem claim_C9_witness :
    (⟨"a-1", 20000000000, .etaVal 30000000000⟩ : CompileStatus) ∈
      showCurrent 120 [("a-1", ⟨100, 0, 0, "a", "1"⟩)]
        [("a", [50000000000])] :=
  (((claim_C9_amended 120 [("a-1", ⟨100, 0, 0, "a", "1"⟩)]
      [("a", [50000000000])] "a-1" ⟨100, 0, 0, "a", "1"⟩ (by decide)
      20000000000 (by decide)).2 [50000000000] (by decide)).2.1 (by decide))

/-! ## List helper lemmas for the matcher proofs -/

theorem tw_len_le (q : Char → Bool) (l : List Char) :
    (l.takeWhile q).length ≤ l.length := by
  induction l with
  | nil => simp
  | cons a t ih =>
    rw [List.takeWhile_cons]
    split
    · simpa using ih
    · simp

theorem tw_take_all (q : Char → Bool) (l : List Char) :
    ∀ k, k ≤ (l.takeWhile q).length → ∀ a ∈ l.take k, q a = true := by
  induction l with
  | nil =>
    intro k hk a ha
    simp at ha
  | cons b t ih =>
    intro k hk a ha
    rw [List.takeWhile_cons] at hk
    cases k with
    | zero => simp at ha
    | succ k' =>
      by_cases hb : q b
      · rw [if_pos hb] at hk
        simp only [List.length_cons] at hk
        rw [List.take_succ_cons] at ha
        rcases List.mem_cons.mp ha with h | h
        · rw [h]; exact hb
        · exact ih k' (by omega) a h
      · rw [if_neg hb] at hk
        simp at hk

theorem tw_prefix_len (q : Char → Bool) (p rest : List Char)
    (hp : ∀ a ∈ p, q a = true) :
    p.length ≤ ((p ++ rest).takeWhile q).length := by
  induction p with
  | nil => simp
  | cons a t ih =>
    simp only [List.cons_append, List.takeWhile_cons]
    rw [if_pos (hp a (List.mem_cons_self a t))]
    simp only [List.length_cons]
    have := ih (fun b hb => hp b (List.mem_cons_of_mem a hb))
    omega

theorem tw_mono_append (q : Char → Bool) (c x : List Char) :
    (c.takeWhile q).length ≤ ((c ++ x).takeWhile q).length := by
  induction c with
  | nil => simp
  | cons a t ih =>
    simp only [List.cons_append, List.takeWhile_cons]
    by_cases ha : q a
    · rw [if_pos ha, if_pos ha]
      simpa using ih
    · rw [if_neg ha, if_neg ha]

theorem tw_all_append (q : Char → Bool) (xs ys : List Char)
    (h : ∀ a ∈ xs, q a = true) :
    (xs ++ ys).takeWhile q = xs ++ ys.takeWhile q := by
  induction xs with
  | nil => simp
  | cons a t ih =>
    simp only [List.cons_append, List.takeWhile_cons,
      if_pos (h a (List.mem_cons_self a t))]
    rw [ih (fun b hb => h b (List.mem_cons_of_mem a hb))]

theorem tw_eq_self (q : Char → Bool) (l : List Char)
    (h : ∀ a ∈ l, q a = true) : l.takeWhile q = l := by
  have h2 := tw_all_append q l [] h
  simpa using h2

theorem take_tw_len (q : Char → Bool) (l : List Char) :
    l.take (l.takeWhile q).length = l.takeWhile q := by
  induction l with
  | nil => simp
  | cons a t ih =>
    rw [List.takeWhile_cons]
    by_cases ha : q a
    · rw [if_pos ha]
      simp only [List.length_cons, List.take_succ_cons, ih]
    · rw [if_neg ha]
      simp

theorem dropLit_eq (lit : List Char) : ∀ s y : List Char,
    dropLit lit s = some y → s = lit ++ y := by
  induction lit with
  | nil =>
    intro s y h
    simp only [dropLit, Option.some.injEq] at h
    simp [h]
  | cons l ls ih =>
    intro s y h
    cases s with
    | nil => simp [dropLit] at h
    | cons c cs =>
      simp only [dropLit] at h
      by_cases hc : c = l
      · rw [if_pos hc] at h
        rw [List.cons_append, hc, ih cs y h]
      · rw [if_neg hc] at h
        exact absurd h (by simp)

theorem dropLit_of_append (lit y : List Char) :
    dropLit lit (lit ++ y) = some y := by
  induction lit with
  | nil => rfl
  | cons l ls ih => simp [dropLit, ih]

theorem digit_ne_space (a : Char) (h : isDigitCh a = true) : a ≠ ' ' := by
  intro he
  rw [he] at h
  exact absurd h (by decide)

/-! ## Characterisation of the backtracking package split -/

theorem pkgSplitAux_extract
    (verM : List Char → Option (List Char × List Char)) (s : List Char) :
    ∀ n p v rest, pkgSplitAux verM s n = some (p, v, rest) →
      ∃ k, 1 ≤ k ∧ k ≤ n ∧ p = s.take k ∧
        (∃ t, s.drop k = '-' :: t ∧ verM t = some (v, rest)) ∧
        (∀ j t', k < j → j ≤ n → s.drop j = '-' :: t' → verM t' = none) := by
  intro n
  induction n with
  | zero =>
    intro p v rest h
    simp [pkgSplitAux] at h
  | succ m ih =>
    intro p v rest h
    rw [pkgSplitAux] at h
    split at h
    · rename_i t heq
      split at h
      · rename_i v0 rest0 hv
        obtain ⟨hp, hvv, hr⟩ : p = s.take (m + 1) ∧ v0 = v ∧ rest0 = rest := by
          simpa [eq_comm] using h
        refine ⟨m + 1, by omega, le_refl _, hp, ⟨t, heq, by rw [hv, hvv, hr]⟩,
          ?_⟩
        intro j t' hj1 hj2 _
        omega
      · rename_i hv
        obtain ⟨k, h1, h2, h3, h4, h5⟩ := ih p v rest h
        refine ⟨k, h1, by omega, h3, h4, ?_⟩
        intro j t' hj1 hj2 hdrop
        rcases Nat.lt_or_ge j (m + 1) with hj | hj
        · exact h5 j t' hj1 (by omega) hdrop
        · have hje : j = m + 1 := by omega
          rw [hje, heq] at hdrop
          have ht : t' = t := by
            simpa using hdrop.symm
          rw [ht]
          exact hv
    · rename_i hne
      obtain ⟨k, h1, h2, h3, h4, h5⟩ := ih p v rest h
      refine ⟨k, h1, by omega, h3, h4, ?_⟩
      intro j t' hj1 hj2 hdrop
      rcases Nat.lt_or_ge j (m + 1) with hj | hj
      · exact h5 j t' hj1 (by omega) hdrop
      · have hje : j = m + 1 := by omega
        rw [hje] at hdrop
        exact absurd hdrop (by intro hc; exact hne t' hc)

theorem pkgSplitAux_of_succ
    (verM : List Char → Option (List Char × List Char)) (s : List Char) :
    ∀ n k t v rest, 1 ≤ k → k ≤ n → s.drop k = '-' :: t →
      verM t = some (v, rest) →
      (∀ j t', k < j → j ≤ n → s.drop j = '-' :: t' → verM t' = none) →
      pkgSplitAux verM s n = some (s.take k, v, rest) := by
  intro n
  induction n with
  | zero =>
    intro k t v rest h1 h2
    omega
  | succ m ih =>
    intro k t v rest h1 h2 hdrop hver hmax
    rw [pkgSplitAux]
    rcases Nat.lt_or_ge k (m + 1) with hk | hk
    · have hrec : pkgSplitAux verM s m = some (s.take k, v, rest) :=
        ih k t v rest h1 (by omega) hdrop hver
          (fun j t' hj1 hj2 hd => hmax j t' hj1 (by omega) hd)
      split
      · rename_i t0 heq
        split
        · rename_i v0 rest0 hv0
          have := hmax (m + 1) t0 (by omega) (le_refl _) heq
          rw [this] at hv0
          exact absurd hv0 (by simp)
        · exact hrec
      · exact hrec
    · have hke : k = m + 1 := by omega
      rw [hke] at hdrop
      split
      · rename_i t0 heq
        rw [heq] at hdrop
        have ht : t0 = t := by simpa using hdrop
        split
        · rename_i v0 rest0 hv0
          rw [ht, hver] at hv0
          have : v0 = v ∧ rest0 = rest := by simpa using hv0.symm
          rw [hke, this.1, this.2]
        · rename_i hv0
          rw [ht, hver] at hv0
          exact absurd hv0 (by simp)
      · rename_i hne
        exact absurd hdrop (by intro hc; exact hne t hc)

theorem pkgSplitAux_ne_none
    (verM : List Char → Option (List Char × List Char)) (s : List Char) :
    ∀ n k t, 1 ≤ k → k ≤ n → s.drop k = '-' :: t →
      verM t ≠ none → pkgSplitAux verM s n ≠ none := by
  intro n
  induction n with
  | zero =>
    intro k t h1 h2
    omega
  | succ m ih =>
    intro k t h1 h2 hdrop hver
    rw [pkgSplitAux]
    rcases Nat.lt_or_ge k (m + 1) with hk | hk
    · have hrec := ih k t h1 (by omega) hdrop hver
      split
      · split
        · simp
        · exact hrec
      · exact hrec
    · have hke : k = m + 1 := by omega
      rw [hke] at hdrop
      split
      · rename_i t0 heq
        rw [heq] at hdrop
        have ht : t0 = t := by simpa using hdrop
        split
        · simp
        · rename_i hv0
          rw [ht] at hv0
          exact absurd hv0 hver
      · rename_i hne
        exact absurd hdrop (by intro hc; exact hne t hc)

/-! ## Specification of the version matchers -/

theorem verTo_spec (t v rest : List Char) (h : verTo t = some (v, rest)) :
    ∃ d r run, t = d :: r ∧ isDigitCh d = true ∧
      run = r.takeWhile (fun c => c ≠ ' ') ∧ run ≠ [] ∧
      v = d :: run ∧ r = run ++ (" to /".data ++ rest) := by
  cases t with
  | nil => simp [verTo] at h
  | cons d r =>
    simp only [verTo] at h
    by_cases hd : isDigitCh d
    · rw [if_pos hd] at h
      by_cases hrun : (r.takeWhile (fun c => c ≠ ' ')).isEmpty
      · rw [if_pos hrun] at h
        exact absurd h (by simp)
      · rw [if_neg hrun] at h
        split at h
        · rename_i rest0 hdl
          obtain ⟨hvv, hrr⟩ :
              d :: r.takeWhile (fun c => c ≠ ' ') = v ∧ rest0 = rest := by
            simpa using h
          refine ⟨d, r, r.takeWhile (fun c => c ≠ ' '), rfl, hd, rfl,
            by simpa using hrun, hvv.symm, ?_⟩
          have hd2 := dropLit_eq _ _ _ hdl
          rw [hrr] at hd2
          conv_lhs => rw [← List.take_append_drop
            (r.takeWhile (fun c => c ≠ ' ')).length r]
          rw [take_tw_len, hd2]
        · exact absurd h (by simp)
    · rw [if_neg hd] at h
      exact absurd h (by simp)

theorem splitVer_of (d : Char) (run : List Char) (hd : isDigitCh d = true)
    (hrun : run ≠ []) (hnos : ∀ a ∈ run, a ≠ ' ') :
    splitVer (d :: run) = some (d :: run, []) := by
  simp only [splitVer, if_pos hd]
  rw [tw_eq_self _ run (fun a ha => by simpa using hnos a ha)]
  rw [if_neg (by simpa using hrun)]
  rw [List.drop_length]

theorem splitVer_shape (t v rest : List Char)
    (h : splitVer t = some (v, rest)) :
    ∃ d c r1, t = d :: c :: r1 ∧ isDigitCh d = true ∧ c ≠ ' ' := by
  cases t with
  | nil => simp [splitVer] at h
  | cons d r =>
    simp only [splitVer] at h
    by_cases hd : isDigitCh d
    · rw [if_pos hd] at h
      by_cases hrun : (r.takeWhile (fun c => c ≠ ' ')).isEmpty
      · rw [if_pos hrun] at h
        exact absurd h (by simp)
      · cases r with
        | nil => simp at hrun
        | cons c r1 =>
          refine ⟨d, c, r1, rfl, hd, ?_⟩
          intro hc
          rw [hc] at hrun
          simp [List.takeWhile_cons] at hrun
    · rw [if_neg hd] at h
      exact absurd h (by simp)

theorem verTo_of_append (d : Char) (r' rest : List Char)
    (hd : isDigitCh d = true) (hr : r' ≠ [])
    (hnos : ∀ a ∈ r', a ≠ ' ') :
    verTo (d :: (r' ++ (" to /".data ++ rest))) = some (d :: r', rest) := by
  simp only [verTo, if_pos hd]
  rw [tw_all_append _ r' _ (fun a ha => by simpa using hnos a ha)]
  have hys : ((" to /".data ++ rest).takeWhile (fun c => decide (c ≠ ' ')))
      = [] := rfl
  rw [hys, List.append_nil]
  rw [if_neg (by simpa using hr)]
  rw [List.drop_left]
  rw [dropLit_of_append]

theorem verTo_ne_none_of_splitVer (t' rest : List Char) (v' rr : List Char)
    (h : splitVer t' = some (v', rr)) (hnos : ∀ a ∈ t', a ≠ ' ') :
    verTo (t' ++ (" to /".data ++ rest)) ≠ none := by
  obtain ⟨d, c, r1, ht, hd, hc⟩ := splitVer_shape t' v' rr h
  subst ht
  have hr : (c :: r1) ≠ [] := by simp
  have hnos' : ∀ a ∈ c :: r1, a ≠ ' ' :=
    fun a ha => hnos a (List.mem_cons_of_mem d ha)
  show verTo (d :: (c :: r1 ++ (" to /".data ++ rest))) ≠ none
  rw [verTo_of_append d (c :: r1) rest hd hr hnos']
  simp

/-! ## The round-trip between the start capture and the splitter (C7) -/

theorem compileStartFind_exists (msg p v : List Char)
    (h : compileStartFind msg = some (p, v)) :
    ∃ s, compileStartHere s = some (p, v) := by
  induction msg with
  | nil => simp [compileStartFind] at h
  | cons c t ih =>
    rw [compileStartFind] at h
    split at h
    · rename_i pv hpv
      have hp := Option.some.inj h
      exact ⟨c :: t, by rw [hpv, hp]⟩
    · exact ih h

theorem compileStartHere_split (s p v : List Char)
    (h : compileStartHere s = some (p, v)) :
    ∃ s3 rest, pkgSplitHere verTo s3 = some (p, v, rest) := by
  rw [compileStartHere] at h
  split at h
  · exact absurd h (by simp)
  · split at h
    · exact absurd h (by simp)
    · split at h
      · exact absurd h (by simp)
      · rename_i s3 h3
        split at h
        · rename_i p0 v0 rest0 h4
          obtain ⟨hp0, hv0⟩ : p0 = p ∧ v0 = v := by simpa using h
          rw [hp0, hv0] at h4
          exact ⟨s3, rest0, h4⟩
        · exact absurd h (by simp)

theorem pkgSplitHere_verTo_spec (s3 p v rest : List Char)
    (h : pkgSplitHere verTo s3 = some (p, v, rest)) :
    ∃ d run, 1 ≤ p.length ∧ (∀ a ∈ p, isPkgChar a = true) ∧
      v = d :: run ∧ isDigitCh d = true ∧ run ≠ [] ∧
      (∀ a ∈ run, a ≠ ' ') ∧
      s3 = (p ++ '-' :: v) ++ (" to /".data ++ rest) ∧
      (∀ j t', p.length < j → j ≤ (s3.takeWhile isPkgChar).length →
        s3.drop j = '-' :: t' → verTo t' = none) := by
  obtain ⟨k, h1, h2, h3, ⟨t, hdrop, hver⟩, hmax⟩ :=
    pkgSplitAux_extract verTo s3 _ p v rest h
  obtain ⟨d, r, run, ht, hd, hrun_def, hrunne, hv, hr⟩ :=
    verTo_spec t v rest hver
  have hkle : k ≤ s3.length := le_trans h2 (tw_len_le _ _)
  have hplen : p.length = k := by
    rw [h3, List.length_take]
    omega
  have hnos : ∀ a ∈ run, a ≠ ' ' := by
    intro a ha
    rw [hrun_def] at ha
    have hmem := List.mem_takeWhile_imp ha
    simpa using hmem
  have hs3 : s3 = (p ++ '-' :: v) ++ (" to /".data ++ rest) := by
    conv_lhs => rw [← List.take_append_drop k s3]
    rw [← h3, hdrop, ht, hr, hv]
    simp [List.append_assoc]
  refine ⟨d, run, by omega, ?_, hv, hd, hrunne, hnos, hs3, ?_⟩
  · intro a ha
    have hin : a ∈ s3.take k := by
      rw [← h3]
      exact ha
    exact tw_take_all isPkgChar s3 k h2 a hin
  · intro j t' hj1 hj2 hdrop'
    exact hmax j t' (by omega) hj2 hdrop'

theorem splitpkgverHere_of (p v : List Char) (d : Char) (run : List Char)
    (hp1 : 1 ≤ p.length) (hcls : ∀ a ∈ p, isPkgChar a = true)
    (hv : v = d :: run) (hd : isDigitCh d = true) (hrun : run ≠ [])
    (hnos : ∀ a ∈ run, a ≠ ' ')
    (hmax : ∀ j t', p.length < j →
      j ≤ ((p ++ '-' :: v).takeWhile isPkgChar).length →
      (p ++ '-' :: v).drop j = '-' :: t' → splitVer t' = none) :
    splitpkgverHere (p ++ '-' :: v) = some (p, v) := by
  have hdrop : (p ++ '-' :: v).drop p.length = '-' :: v := List.drop_left p _
  have hsv : splitVer v = some (v, []) := by
    rw [hv]
    exact splitVer_of d run hd hrun hnos
  have hkle : p.length ≤ ((p ++ '-' :: v).takeWhile isPkgChar).length :=
    tw_prefix_len isPkgChar p _ hcls
  have haux := pkgSplitAux_of_succ splitVer (p ++ '-' :: v) _ p.length v v []
    hp1 hkle hdrop hsv hmax
  rw [List.take_left] at haux
  simp only [splitpkgverHere, pkgSplitHere, haux]

theorem max_transfer (p v rest : List Char) (d : Char) (run : List Char)
    (hv : v = d :: run) (hd : isDigitCh d = true)
    (hnos : ∀ a ∈ run, a ≠ ' ')
    (hmaxS3 : ∀ j t', p.length < j →
      j ≤ (((p ++ '-' :: v) ++ (" to /".data ++ rest)).takeWhile
        isPkgChar).length →
      ((p ++ '-' :: v) ++ (" to /".data ++ rest)).drop j = '-' :: t' →
      verTo t' = none) :
    ∀ j t', p.length < j →
      j ≤ ((p ++ '-' :: v).takeWhile isPkgChar).length →
      (p ++ '-' :: v).drop j = '-' :: t' → splitVer t' = none := by
  intro j t' hj1 hj2 hdrop
  by_contra hne
  obtain ⟨⟨v', rr⟩, hsv⟩ := Option.ne_none_iff_exists'.mp hne
  have hvnos : ∀ a ∈ v, a ≠ ' ' := by
    intro a ha
    rw [hv] at ha
    rcases List.mem_cons.mp ha with h | h
    · rw [h]
      exact digit_ne_space d hd
    · exact hnos a h
  have htnos : ∀ a ∈ t', a ≠ ' ' := by
    intro a ha
    have hj' : j = p.length + (j - p.length) := by omega
    rw [hj', List.drop_append] at hdrop
    have hm : j - p.length = (j - p.length - 1) + 1 := by omega
    rw [hm, List.drop_succ_cons] at hdrop
    have hmem : a ∈ v.drop (j - p.length - 1) := by
      rw [hdrop]
      exact List.mem_cons_of_mem '-' ha
    exact hvnos a (List.mem_of_mem_drop hmem)
  have hjlen : j ≤ (p ++ '-' :: v).length :=
    le_trans hj2 (tw_len_le _ _)
  have hs3drop : ((p ++ '-' :: v) ++ (" to /".data ++ rest)).drop j =
      '-' :: (t' ++ (" to /".data ++ rest)) := by
    rw [List.drop_append_of_le_length hjlen, hdrop]
    simp
  have hj2' : j ≤ (((p ++ '-' :: v) ++ (" to /".data ++ rest)).takeWhile
      isPkgChar).length :=
    le_trans hj2 (tw_mono_append isPkgChar _ _)
  have hvt := hmaxS3 j (t' ++ (" to /".data ++ rest)) hj1 hj2' hs3drop
  exact verTo_ne_none_of_splitVer t' rest v' rr hsv htnos hvt

/-- C7: whenever the build-start pattern captures `(package, version)` from a
message, applying the standalone splitter `splitpkgver` to the composite key
`"{package}-{version}"` recovers exactly the same pair. -/
theorem claim_C7_roundtrip (msg p v : List Char)
    (h : compileStartFind msg = some (p, v)) :
    splitpkgver (keyOf p v) = some (⟨p⟩, ⟨v⟩) := by
  obtain ⟨s, hs⟩ := compileStartFind_exists msg p v h
  obtain ⟨s3, rest, h3⟩ := compileStartHere_split s p v hs
  obtain ⟨d, run, hp1, hcls, hv, hd, hrunne, hnos, hs3, hmaxS3⟩ :=
    pkgSplitHere_verTo_spec s3 p v rest h3
  rw [hs3] at hmaxS3
  have hmaxC := max_transfer p v rest d run hv hd hnos hmaxS3
  have hhere := splitpkgverHere_of p v d run hp1 hcls hv hd hrunne hnos hmaxC
  have hfind : splitpkgverFind (p ++ '-' :: v) = some (p, v) := by
    cases p with
    | nil => simp at hp1
    | cons a t =>
      rw [List.cons_append] at hhere ⊢
      rw [splitpkgverFind, hhere]
  simp only [splitpkgver, keyOf]
  rw [hfind]
  rfl

/-- Witness for C7: the capture of a start line for
`app-shells/bash-4.4_p12` round-trips through the splitter. -/
theorem claim_C7_witness :
    splitpkgver (keyOf "app-shells/bash".data "4.4_p12".data) =
      some ("app-shells/bash", "4.4_p12") :=
  claim_C7_roundtrip ">>> emerge (1 of 2) app-shells/bash-4.4_p12 to /".data
    "app-shells/bash".data "4.4_p12".data (by decide)

/-! ## The panic domain of the splitter (C10) -/

theorem splitpkgverHere_ne_none (p : List Char) (d c : Char) (r : List Char)
    (hp : p ≠ []) (hcls : ∀ a ∈ p, isPkgChar a = true)
    (hd : isDigitCh d = true) (hc : c ≠ ' ') :
    splitpkgverHere (p ++ '-' :: d :: c :: r) ≠ none := by
  have hp1 : 1 ≤ p.length := List.length_pos.mpr hp
  have hsv : splitVer (d :: c :: r) ≠ none := by
    simp [splitVer, hd, hc, List.takeWhile_cons]
  have hkle : p.length ≤
      ((p ++ '-' :: d :: c :: r).takeWhile isPkgChar).length :=
    tw_prefix_len isPkgChar p _ hcls
  have haux := pkgSplitAux_ne_none splitVer (p ++ '-' :: d :: c :: r) _
    p.length (d :: c :: r) hp1 hkle (List.drop_left p _) hsv
  intro hnone
  cases h2 : pkgSplitAux splitVer (p ++ '-' :: d :: c :: r)
      ((p ++ '-' :: d :: c :: r).takeWhile isPkgChar).length with
  | none => exact haux h2
  | some x =>
    obtain ⟨p', v', r'⟩ := x
    rw [show splitpkgverHere (p ++ '-' :: d :: c :: r) = some (p', v') from by
      simp only [splitpkgverHere, pkgSplitHere, h2]] at hnone
    exact absurd hnone (by simp)

theorem find_cons_none (a : Char) (t : List Char)
    (h : splitpkgverFind (a :: t) = none) :
    splitpkgverHere (a :: t) = none ∧ splitpkgverFind t = none := by
  rw [splitpkgverFind] at h
  split at h
  · exact absurd h (by simp)
  · rename_i hpv
    exact ⟨hpv, h⟩

theorem hasPkgVer_find_ne_none (s : List Char) (h : HasPkgVer s) :
    splitpkgverFind s ≠ none := by
  obtain ⟨u, p, d, c, r, hs, hp, hcls, hd, hc⟩ := h
  subst hs
  induction u with
  | nil =>
    intro hnone
    simp only [List.nil_append] at hnone
    cases p with
    | nil => exact hp rfl
    | cons a t =>
      rw [List.cons_append] at hnone
      obtain ⟨hhere, _⟩ := find_cons_none _ _ hnone
      rw [← List.cons_append] at hhere
      exact splitpkgverHere_ne_none (a :: t) d c r (by simp) hcls hd hc hhere
  | cons b u' ih =>
    intro hnone
    rw [List.cons_append] at hnone
    obtain ⟨_, hfind⟩ := find_cons_none _ _ hnone
    exact ih hfind

theorem find_some_hasPkgVer : ∀ (s : List Char) pv,
    splitpkgverFind s = some pv → HasPkgVer s := by
  intro s
  induction s with
  | nil =>
    intro pv h
    simp [splitpkgverFind] at h
  | cons a t ih =>
    intro pv h
    rw [splitpkgverFind] at h
    split at h
    · rename_i pv' hpv
      obtain ⟨p, v, rest, haux⟩ : ∃ p v rest,
          pkgSplitHere splitVer (a :: t) = some (p, v, rest) := by
        rcases h2 : pkgSplitHere splitVer (a :: t) with _ | ⟨p, v, rest⟩
        · rw [show splitpkgverHere (a :: t) = none from by
            simp only [splitpkgverHere, h2]] at hpv
          exact absurd hpv (by simp)
        · exact ⟨p, v, rest, rfl⟩
      obtain ⟨k, hk1, hk2, hk3, ⟨t0, hdrop, hver⟩, _⟩ :=
        pkgSplitAux_extract splitVer (a :: t) _ p v rest haux
      obtain ⟨d, c1, r1, ht, hd, hc⟩ := splitVer_shape t0 v rest hver
      refine ⟨[], p, d, c1, r1, ?_, ?_, ?_, hd, hc⟩
      · rw [List.nil_append]
        conv_lhs => rw [← List.take_append_drop k (a :: t)]
        rw [← hk3, hdrop, ht]
      · rw [hk3]
        apply List.length_pos.mp
        have hlen : k ≤ (a :: t).length := le_trans hk2 (tw_len_le _ _)
        rw [List.length_take]
        omega
      · intro x hx
        rw [hk3] at hx
        exact tw_take_all isPkgChar (a :: t) k hk2 x hx
    · obtain ⟨u, p, d, c1, r1, hs, hp, hcls, hd, hc⟩ := ih _ h
      exact ⟨a :: u, p, d, c1, r1, by simp [hs], hp, hcls, hd, hc⟩

theorem runningCompilesGo_error (ls : List (String × Int)) :
    ∀ (procs : List GoProcess) (pr : GoProcess)
      (acc : List RunningCompile),
      pr ∈ procs → sandboxShaped pr = true →
      splitpkgverFind (pkgOf pr) = none →
      runningCompilesGo ls procs acc = Except.error () := by
  intro procs
  induction procs with
  | nil =>
    intro pr acc hmem
    simp at hmem
  | cons q t ih =>
    intro pr acc hmem hsb hf
    rcases List.mem_cons.mp hmem with he | hm
    · subst he
      rw [runningCompilesGo, if_pos hsb]
      simp only [hf]
    · rw [runningCompilesGo]
      by_cases hq : sandboxShaped q
      · rw [if_pos hq]
        rcases hfq : splitpkgverFind (pkgOf q) with _ | ⟨pq, rq⟩
        · simp only [hfq]
        · simp only [hfq]
          cases hlq : lookupA ⟨pq⟩ ls with
          | some ct =>
            exact ih pr _ hm hsb hf
          | none =>
            exact ih pr _ hm hsb hf
      · rw [if_neg hq]
        exact ih pr _ hm hsb hf

/-- C10: `splitpkgver` (through `getReMatches`) panics — modelled as `none`
— exactly on the strings that contain no `PACKAGE-VERSION` shaped substring,
and `runningCompiles` propagates that panic whenever any sandbox-shaped
process record carries such a package identifier extracted, unvalidated,
from its command line. -/
theorem claim_C10_splitver_panic :
    (∀ s : String, splitpkgver s = none ↔ ¬ HasPkgVer s.data) ∧
    (∀ (procs : List GoProcess) (ls : List (String × Int))
      (pr : GoProcess), pr ∈ procs → sandboxShaped pr = true →
      splitpkgverFind (pkgOf pr) = none →
      runningCompiles procs ls = Except.error ()) := by
  constructor
  · intro s
    constructor
    · intro hn hhas
      apply hasPkgVer_find_ne_none s.data hhas
      unfold splitpkgver at hn
      cases hfs : splitpkgverFind s.data with
      | none => rfl
      | some pv =>
        rw [hfs] at hn
        exact absurd hn (by simp)
    · intro hnot
      cases hfs : splitpkgverFind s.data with
      | none =>
        unfold splitpkgver
        rw [hfs]
        rfl
      | some pv => exact absurd (find_some_hasPkgVer s.data pv hfs) hnot
  · intro procs ls pr hmem hsb hf
    exact runningCompilesGo_error ls procs pr [] hmem hsb hf

/-- Witness for C10: a sandbox worker whose bracketed identifier `xyz` has
no package-version shape makes `runningCompiles` hit the panic. -/
theorem claim_C10_witness :
    runningCompiles [⟨["[xyz] sandbox", "ebuild foo compile"]⟩] [] =
      Except.error () :=
  claim_C10_splitver_panic.2 [⟨["[xyz] sandbox", "ebuild foo compile"]⟩] []
    ⟨["[xyz] sandbox", "ebuild foo compile"]⟩ (by decide) (by decide)
    (by decide)

end Golop
